import Mathlib

/-
Verification of the etl biffield register/bit-field generator.

The C++ source (src/biffield/generate_constants.h, generate_value_types.h,
generate_accessors.h, checks.h) expands a declarative register description
into, per field of a register with access type of W = sizeof(access_type)*8
bits:

  - metadata constants: low_bit, high_bit, bit_count, shift_amt, low_mask,
    in_place_mask (generate_constants.h, _ETL_BFF_FIELD_COMMON);
  - an immutable value type with derivation operation with_<field> and
    accessor get_<field> (generate_value_types.h, _ETL_BFF_FIELD_COMMON);
  - accessors read_/write_/swap_/update_ over the storage cell
    (generate_accessors.h);
  - static_assert checks (checks.h).

We embed the arithmetic shallowly: access_type values are naturals < 2^W,
every conversion to access_type is `% 2^W`, C++ `~m & bits` on a W-bit
unsigned is `bits &&& ((2^W - 1) ^^^ m)`.  A field is the triple of its
access width and its low/high bit numbers, exactly the parameters the
macro expansion receives.
-/

namespace Biffield

/-- Parameters of one field expansion of `_ETL_BFF_FIELD_COMMON`:
the register's access width in bits (`sizeof(access_type) * 8`) and the
field's zero-based low and high bit numbers. -/
structure FieldSpec where
  accessBits : Nat
  low_bit : Nat
  high_bit : Nat
deriving DecidableEq

/-- Conversion of an arbitrary integer value to the W-bit unsigned
access type, i.e. `access_type(value)` in the C++ source. -/
def toAccess (W : Nat) (x : Nat) : Nat := x % 2 ^ W

namespace FieldSpec

/-- Source: `bit_count = high_bit - low_bit + 1` (generate_constants.h). -/
def bit_count (f : FieldSpec) : Nat := f.high_bit - f.low_bit + 1

/-- Source: `shift_amt = bit_count % (sizeof(access_type) * 8)`
(generate_constants.h). -/
def shift_amt (f : FieldSpec) : Nat := f.bit_count % f.accessBits

/-- Source (generate_constants.h):
`low_mask = bit_count == sizeof(access_type)*8 ? access_type(0) - 1
: (access_type(1) << shift_amt) - 1`.  On a W-bit unsigned type,
`access_type(0) - 1` is `2^W - 1`, and the result is converted to the
access type, i.e. reduced mod `2^W`. -/
def low_mask (f : FieldSpec) : Nat :=
  if f.bit_count = f.accessBits then 2 ^ f.accessBits - 1
  else ((1 <<< f.shift_amt) - 1) % 2 ^ f.accessBits

/-- Source: `in_place_mask = low_mask << low_bit` (generate_constants.h),
converted to the access type. -/
def in_place_mask (f : FieldSpec) : Nat :=
  (f.low_mask <<< f.low_bit) % 2 ^ f.accessBits

/-- Schema invariant enforced by checks.h for every field:
`high_bit >= low_bit` and `high_bit < sizeof(access_type) * 8`. -/
abbrev Valid (f : FieldSpec) : Prop :=
  f.low_bit ≤ f.high_bit ∧ f.high_bit < f.accessBits

/-- Source (generate_value_types.h, `with_`):
`this_type((_bits & ~in_place_mask) | ((access_type(value) & low_mask) << low_bit))`.
`_bits` is a value of the access type; the constructor converts the
promoted arithmetic result back to the access type (mod `2^W`). -/
def with_field (f : FieldSpec) (bits x : Nat) : Nat :=
  ((bits &&& ((2 ^ f.accessBits - 1) ^^^ f.in_place_mask)) |||
      ((toAccess f.accessBits x &&& f.low_mask) <<< f.low_bit)) % 2 ^ f.accessBits

/-- Source (generate_value_types.h, `get_`):
`__ft((_bits >> low_bit) & low_mask)`. -/
def get_field (f : FieldSpec) (bits : Nat) : Nat :=
  (bits >>> f.low_bit) &&& f.low_mask

theorem bit_count_le (f : FieldSpec) (hf : f.Valid) :
    f.bit_count ≤ f.accessBits := by
  obtain ⟨h1, h2⟩ := hf
  unfold bit_count
  omega

/-- Under the schema invariants, `low_mask` has exactly `bit_count`
low-order bits set, in the full-width case as well as the narrow case. -/
theorem low_mask_eq (f : FieldSpec) (hf : f.Valid) :
    f.low_mask = 2 ^ f.bit_count - 1 := by
  have hbc := f.bit_count_le hf
  unfold low_mask
  by_cases h : f.bit_count = f.accessBits
  · simp [h]
  · have hlt : f.bit_count < f.accessBits := lt_of_le_of_ne hbc h
    have hsa : f.shift_amt = f.bit_count := Nat.mod_eq_of_lt hlt
    have hpow : 2 ^ f.bit_count < 2 ^ f.accessBits :=
      Nat.pow_lt_pow_right (by norm_num) hlt
    have hp1 : 0 < 2 ^ f.bit_count := Nat.pos_pow_of_pos _ (by norm_num)
    rw [if_neg h, hsa, Nat.shiftLeft_eq, one_mul]
    exact Nat.mod_eq_of_lt (by omega)

theorem testBit_low_mask (f : FieldSpec) (hf : f.Valid) (j : Nat) :
    f.low_mask.testBit j = decide (j < f.bit_count) := by
  rw [low_mask_eq f hf, Nat.testBit_two_pow_sub_one]

theorem shiftLeft_low_mask_lt (f : FieldSpec) (hf : f.Valid) :
    f.low_mask <<< f.low_bit < 2 ^ f.accessBits := by
  obtain ⟨h1, h2⟩ := hf
  rw [low_mask_eq f ⟨h1, h2⟩, Nat.shiftLeft_eq]
  have hsum : f.bit_count + f.low_bit ≤ f.accessBits := by
    unfold bit_count
    omega
  calc (2 ^ f.bit_count - 1) * 2 ^ f.low_bit
      < 2 ^ f.bit_count * 2 ^ f.low_bit := by
        have hp : 0 < 2 ^ f.bit_count := Nat.pos_pow_of_pos _ (by norm_num)
        have hq : 0 < 2 ^ f.low_bit := Nat.pos_pow_of_pos _ (by norm_num)
        exact Nat.mul_lt_mul_of_lt_of_le (by omega) (le_refl _) hq
    _ = 2 ^ (f.bit_count + f.low_bit) := by rw [pow_add]
    _ ≤ 2 ^ f.accessBits := Nat.pow_le_pow_right (by norm_num) hsum

/-- For a field satisfying the schema invariants the conversion back to
the access type in `in_place_mask` does not truncate. -/
theorem in_place_mask_eq (f : FieldSpec) (hf : f.Valid) :
    f.in_place_mask = f.low_mask <<< f.low_bit := by
  unfold in_place_mask
  exact Nat.mod_eq_of_lt (f.shiftLeft_low_mask_lt hf)

theorem testBit_in_place_mask (f : FieldSpec) (hf : f.Valid) (j : Nat) :
    f.in_place_mask.testBit j = decide (f.low_bit ≤ j ∧ j ≤ f.high_bit) := by
  obtain ⟨h1, h2⟩ := hf
  rw [in_place_mask_eq f ⟨h1, h2⟩, Nat.testBit_shiftLeft,
    testBit_low_mask f ⟨h1, h2⟩]
  unfold bit_count
  by_cases hle : f.low_bit ≤ j <;> by_cases hhb : j ≤ f.high_bit <;>
    simp [hle, hhb, ge_iff_le] <;> omega

/-- Bit-level characterisation of `with_field`: inside the field the bits
come from the (truncated) argument, outside they come from the receiver. -/
theorem testBit_with_field (f : FieldSpec) (hf : f.Valid) (V x j : Nat) :
    (f.with_field V x).testBit j =
      if f.low_bit ≤ j ∧ j ≤ f.high_bit then x.testBit (j - f.low_bit)
      else (V.testBit j && decide (j < f.accessBits)) := by
  obtain ⟨h1, h2⟩ := hf
  unfold with_field toAccess
  rw [Nat.testBit_mod_two_pow, Nat.testBit_or, Nat.testBit_and,
    Nat.testBit_xor, Nat.testBit_two_pow_sub_one,
    testBit_in_place_mask f ⟨h1, h2⟩, Nat.testBit_shiftLeft, Nat.testBit_and,
    Nat.testBit_mod_two_pow, testBit_low_mask f ⟨h1, h2⟩]
  by_cases hin : f.low_bit ≤ j ∧ j ≤ f.high_bit
  · obtain ⟨hl, hh⟩ := hin
    have hjW : j < f.accessBits := lt_of_le_of_lt hh h2
    have hbc : j - f.low_bit < f.bit_count := by
      unfold bit_count
      omega
    have hsubW : j - f.low_bit < f.accessBits := by omega
    simp [hl, hh, hjW, hbc, hsubW, ge_iff_le]
  · rw [if_neg hin]
    by_cases hjW : j < f.accessBits
    · by_cases hl : f.low_bit ≤ j
      · have hh : ¬ j ≤ f.high_bit := fun h => hin ⟨hl, h⟩
        have hbc : ¬ (j - f.low_bit < f.bit_count) := by
          unfold bit_count
          omega
        simp [hl, hh, hjW, hbc, ge_iff_le]
      · simp [hl, hjW, ge_iff_le]
    · simp [hjW]

end FieldSpec

/-- Parameters of one field expansion of `ETL_BFF_FIELD_ARRAY`
(generate_constants.h): the common field parameters plus
`bits_per_element`, the width of each packed sub-field. -/
structure ArrayFieldSpec extends FieldSpec where
  bits_per_element : Nat
deriving DecidableEq

namespace ArrayFieldSpec

/-- Source: `low_element_mask = (access_type(1) << bits_per_element) - 1`
(generate_constants.h), converted to the access type. -/
def low_element_mask (af : ArrayFieldSpec) : Nat :=
  ((1 <<< af.bits_per_element) - 1) % 2 ^ af.accessBits

/-- Source: `element_count = bit_count / bits_per_element`. -/
def element_count (af : ArrayFieldSpec) : Nat :=
  af.toFieldSpec.bit_count / af.bits_per_element

/-- Source: `low_bit_of(idx) = low_bit + idx * bits_per_element`. -/
def low_bit_of (af : ArrayFieldSpec) (idx : Nat) : Nat :=
  af.low_bit + idx * af.bits_per_element

/-- Source: `in_place_mask_of(idx) = low_element_mask << low_bit_of(idx)`,
converted to the access type. -/
def in_place_mask_of (af : ArrayFieldSpec) (idx : Nat) : Nat :=
  (af.low_element_mask <<< af.low_bit_of idx) % 2 ^ af.accessBits

/-- Source (generate_value_types.h, ETL_BFF_FIELD_ARRAY `with_`):
`this_type((_bits & ~in_place_mask_of(idx))
| ((access_type(value) & low_element_mask) << low_bit_of(idx)))`. -/
def with_field_array (af : ArrayFieldSpec) (bits idx x : Nat) : Nat :=
  ((bits &&& ((2 ^ af.accessBits - 1) ^^^ af.in_place_mask_of idx)) |||
      ((toAccess af.accessBits x &&& af.low_element_mask) <<<
        af.low_bit_of idx)) % 2 ^ af.accessBits

/-- Source (generate_value_types.h, ETL_BFF_FIELD_ARRAY `get_`):
`__ft((_bits >> low_bit_of(idx)) & low_element_mask)`. -/
def get_field_array (af : ArrayFieldSpec) (bits idx : Nat) : Nat :=
  (bits >>> af.low_bit_of idx) &&& af.low_element_mask

theorem shiftLeft_sub_one_lt (a b W : Nat) (h : a + b ≤ W) :
    (2 ^ a - 1) <<< b < 2 ^ W := by
  rw [Nat.shiftLeft_eq]
  have h1 : 0 < 2 ^ a := Nat.pos_pow_of_pos _ (by norm_num)
  have h2 : 0 < 2 ^ b := Nat.pos_pow_of_pos _ (by norm_num)
  calc (2 ^ a - 1) * 2 ^ b < 2 ^ a * 2 ^ b :=
        Nat.mul_lt_mul_of_lt_of_le (by omega) (le_refl _) h2
    _ = 2 ^ (a + b) := by rw [pow_add]
    _ ≤ 2 ^ W := Nat.pow_le_pow_right (by norm_num) h

/-- An in-range index addresses bits that stay inside the field's bit
range, hence inside the register width. -/
theorem low_bit_of_add_le (af : ArrayFieldSpec) (hv : af.toFieldSpec.Valid)
    (idx : Nat) (hi : idx < af.element_count) :
    af.low_bit_of idx + af.bits_per_element ≤ af.high_bit + 1 := by
  have h0 : idx + 1 ≤ af.element_count := hi
  have h1 : (idx + 1) * af.bits_per_element ≤
      af.element_count * af.bits_per_element :=
    Nat.mul_le_mul_right _ h0
  rw [Nat.add_mul, one_mul] at h1
  have h2 : af.element_count * af.bits_per_element ≤ af.toFieldSpec.bit_count := by
    unfold element_count
    exact Nat.div_mul_le_self _ _
  have h3 := hv.1
  unfold low_bit_of
  unfold FieldSpec.bit_count at h2
  omega

theorem low_element_mask_eq (af : ArrayFieldSpec)
    (hbW : af.bits_per_element ≤ af.accessBits) :
    af.low_element_mask = 2 ^ af.bits_per_element - 1 := by
  unfold low_element_mask
  rw [Nat.shiftLeft_eq, one_mul]
  have h1 : 0 < 2 ^ af.bits_per_element := Nat.pos_pow_of_pos _ (by norm_num)
  have h2 : 2 ^ af.bits_per_element ≤ 2 ^ af.accessBits :=
    Nat.pow_le_pow_right (by norm_num) hbW
  exact Nat.mod_eq_of_lt (by omega)

theorem in_place_mask_of_eq (af : ArrayFieldSpec) (hv : af.toFieldSpec.Valid)
    (_hbpe : 0 < af.bits_per_element) (idx : Nat) (hi : idx < af.element_count) :
    af.in_place_mask_of idx = af.low_element_mask <<< af.low_bit_of idx := by
  have hle := af.low_bit_of_add_le hv idx hi
  have hbW : af.bits_per_element ≤ af.accessBits := by
    have := hv.2
    omega
  unfold in_place_mask_of
  rw [low_element_mask_eq af hbW]
  exact Nat.mod_eq_of_lt (shiftLeft_sub_one_lt _ _ _ (by
    have := hv.2
    omega))

theorem testBit_in_place_mask_of (af : ArrayFieldSpec)
    (hv : af.toFieldSpec.Valid) (hbpe : 0 < af.bits_per_element) (idx : Nat)
    (hi : idx < af.element_count) (j : Nat) :
    (af.in_place_mask_of idx).testBit j =
      decide (af.low_bit_of idx ≤ j ∧
        j < af.low_bit_of idx + af.bits_per_element) := by
  have hbW : af.bits_per_element ≤ af.accessBits := by
    have h1 := af.low_bit_of_add_le hv idx hi
    have h2 := hv.2
    omega
  rw [in_place_mask_of_eq af hv hbpe idx hi, low_element_mask_eq af hbW,
    Nat.testBit_shiftLeft, Nat.testBit_two_pow_sub_one]
  by_cases hle : af.low_bit_of idx ≤ j <;>
    by_cases hup : j < af.low_bit_of idx + af.bits_per_element <;>
    simp [hle, hup, ge_iff_le] <;> omega

/-- Bit-level characterisation of the array-field derivation: inside the
addressed element the bits come from the (truncated) argument, outside
they come from the receiver. -/
theorem testBit_with_field_array (af : ArrayFieldSpec)
    (hv : af.toFieldSpec.Valid) (hbpe : 0 < af.bits_per_element) (idx : Nat)
    (hi : idx < af.element_count) (V x j : Nat) :
    (af.with_field_array V idx x).testBit j =
      if af.low_bit_of idx ≤ j ∧ j < af.low_bit_of idx + af.bits_per_element
      then x.testBit (j - af.low_bit_of idx)
      else (V.testBit j && decide (j < af.accessBits)) := by
  have hle := af.low_bit_of_add_le hv idx hi
  have hW := hv.2
  have hbW : af.bits_per_element ≤ af.accessBits := by omega
  unfold with_field_array toAccess
  rw [Nat.testBit_mod_two_pow, Nat.testBit_or, Nat.testBit_and,
    Nat.testBit_xor, Nat.testBit_two_pow_sub_one,
    testBit_in_place_mask_of af hv hbpe idx hi, Nat.testBit_shiftLeft,
    Nat.testBit_and, Nat.testBit_mod_two_pow, low_element_mask_eq af hbW,
    Nat.testBit_two_pow_sub_one]
  by_cases hin : af.low_bit_of idx ≤ j ∧
      j < af.low_bit_of idx + af.bits_per_element
  · obtain ⟨hl, hh⟩ := hin
    have hjW : j < af.accessBits := by omega
    have hbc : j - af.low_bit_of idx < af.bits_per_element := by omega
    have hsubW : j - af.low_bit_of idx < af.accessBits := by omega
    simp [hl, hh, hjW, hbc, hsubW, ge_iff_le]
  · rw [if_neg hin]
    by_cases hjW : j < af.accessBits
    · by_cases hl : af.low_bit_of idx ≤ j
      · have hh : ¬ j < af.low_bit_of idx + af.bits_per_element :=
          fun h => hin ⟨hl, h⟩
        have hbc : ¬ (j - af.low_bit_of idx < af.bits_per_element) := by
          omega
        simp [hl, hh, hjW, hbc, ge_iff_le]
      · simp [hl, hjW, ge_iff_le]
    · simp [hjW]

end ArrayFieldSpec

open FieldSpec

/-- C1: for every register value V, field F satisfying the schema
invariants, and argument x of F's field type, deriving with F and then
reading F back truncates rather than overflows:
V.with_F(x).get_F() = x &&& low_mask(F). -/
theorem with_get_roundtrip (f : FieldSpec) (hf : f.Valid) (V x : Nat) :
    f.get_field (f.with_field V x) = x &&& f.low_mask := by
  obtain ⟨hl, hw⟩ := hf
  apply Nat.eq_of_testBit_eq
  intro j
  unfold FieldSpec.get_field
  simp only [Nat.testBit_and, Nat.testBit_shiftRight,
    testBit_low_mask f ⟨hl, hw⟩]
  rw [testBit_with_field f ⟨hl, hw⟩]
  by_cases hj : j < f.bit_count
  · have h1 : f.low_bit ≤ f.low_bit + j := Nat.le_add_right _ _
    have h2 : f.low_bit + j ≤ f.high_bit := by
      unfold FieldSpec.bit_count at hj
      omega
    simp [h1, h2, hj, Nat.add_sub_cancel_left]
  · simp [hj]

/-- Witness for C1 at a concrete field (bits 1..4 of an 8-bit register)
and a deliberately oversized argument. -/
theorem with_get_roundtrip_witness :
    (FieldSpec.mk 8 1 4).Valid ∧
      (FieldSpec.mk 8 1 4).get_field ((FieldSpec.mk 8 1 4).with_field 171 499) =
        499 &&& (FieldSpec.mk 8 1 4).low_mask :=
  ⟨by decide, with_get_roundtrip (FieldSpec.mk 8 1 4) (by decide) 171 499⟩

/-- C2: for every field satisfying the schema invariants, low_mask has
exactly bit_count low-order bits set: 2^bit_count - 1 when
bit_count < W, and all W bits set when bit_count = W (the special-cased
full-width branch of the conditional, not a W-bit shift); and
in_place_mask = low_mask <<< low_bit with no truncation. -/
theorem low_mask_bits_spec (f : FieldSpec) (hf : f.Valid) :
    (f.bit_count < f.accessBits → f.low_mask = 2 ^ f.bit_count - 1) ∧
      (f.bit_count = f.accessBits → f.low_mask = 2 ^ f.accessBits - 1) ∧
      f.in_place_mask = f.low_mask <<< f.low_bit := by
  refine ⟨fun _ => low_mask_eq f hf, fun h => ?_, in_place_mask_eq f hf⟩
  rw [low_mask_eq f hf, h]

/-- Witness for C2 at the spec's edge case: an 8-bit register with one
8-bit field has low_mask = 0xFF, not 0. -/
theorem low_mask_bits_spec_witness :
    (FieldSpec.mk 8 0 7).Valid ∧ (FieldSpec.mk 8 0 7).bit_count = 8 ∧
      (FieldSpec.mk 8 0 7).low_mask = 255 ∧
      (FieldSpec.mk 8 0 7).in_place_mask = (FieldSpec.mk 8 0 7).low_mask <<< 0 :=
  ⟨by decide, by decide,
    by
      have h := (low_mask_bits_spec (FieldSpec.mk 8 0 7) (by decide)).2.1 (by decide)
      simpa using h,
    (low_mask_bits_spec (FieldSpec.mk 8 0 7) (by decide)).2.2⟩

/-- C5 as stated is false: with the two valid, distinct, non-overlapping
one-bit fields F1 = bit 0 and F2 = bit 1 of an 8-bit register, V = 0,
a = 2 and b = 0, the derivation chain yields get_F1 = 0 ≠ 2, because
with_F1 masks its argument with low_mask before installing it. -/
theorem nonoverlap_counterexample :
    (FieldSpec.mk 8 0 0).Valid ∧ (FieldSpec.mk 8 1 1).Valid ∧
      (FieldSpec.mk 8 0 0).in_place_mask &&& (FieldSpec.mk 8 1 1).in_place_mask = 0 ∧
      ¬ ((FieldSpec.mk 8 0 0).get_field
          ((FieldSpec.mk 8 1 1).with_field
            ((FieldSpec.mk 8 0 0).with_field 0 2) 0) = 2) := by
  decide

/-- C5 amended: for valid fields F1, F2 of the same register with
disjoint in-place masks, V.with_F1(a).with_F2(b).get_F1() equals
a &&& low_mask(F1) — hence equals a whenever a fits in F1. -/
theorem nonoverlap_get_amended (f1 f2 : FieldSpec) (h1 : f1.Valid)
    (h2 : f2.Valid) (hW : f2.accessBits = f1.accessBits)
    (hdisj : f1.in_place_mask &&& f2.in_place_mask = 0) (V a b : Nat) :
    f1.get_field (f2.with_field (f1.with_field V a) b) = a &&& f1.low_mask := by
  obtain ⟨hl1, hw1⟩ := h1
  obtain ⟨hl2, hw2⟩ := h2
  apply Nat.eq_of_testBit_eq
  intro j
  unfold FieldSpec.get_field
  simp only [Nat.testBit_and, Nat.testBit_shiftRight,
    testBit_low_mask f1 ⟨hl1, hw1⟩]
  by_cases hj : j < f1.bit_count
  · have hp1 : f1.low_bit ≤ f1.low_bit + j := Nat.le_add_right _ _
    have hp2 : f1.low_bit + j ≤ f1.high_bit := by
      unfold FieldSpec.bit_count at hj
      omega
    have hand : (f1.in_place_mask &&& f2.in_place_mask).testBit
        (f1.low_bit + j) = false := by
      rw [hdisj]
      simp
    rw [Nat.testBit_and, testBit_in_place_mask f1 ⟨hl1, hw1⟩] at hand
    simp only [hp1, hp2, and_self, decide_True, Bool.true_and] at hand
    have hout2 : ¬ (f2.low_bit ≤ f1.low_bit + j ∧
        f1.low_bit + j ≤ f2.high_bit) := by
      intro hc
      rw [testBit_in_place_mask f2 ⟨hl2, hw2⟩] at hand
      simp [hc.1, hc.2] at hand
    rw [testBit_with_field f2 ⟨hl2, hw2⟩, if_neg hout2,
      testBit_with_field f1 ⟨hl1, hw1⟩, if_pos ⟨hp1, hp2⟩]
    have hpw : f1.low_bit + j < f2.accessBits := by
      rw [hW]
      omega
    simp [hpw, hj, Nat.add_sub_cancel_left]
  · simp [hj]

/-- Witness for C5's amended law with the two nibbles of an 8-bit
register. -/
theorem nonoverlap_get_amended_witness :
    (FieldSpec.mk 8 0 3).Valid ∧ (FieldSpec.mk 8 4 7).Valid ∧
      (FieldSpec.mk 8 0 3).in_place_mask &&& (FieldSpec.mk 8 4 7).in_place_mask = 0 ∧
      (FieldSpec.mk 8 0 3).get_field
          ((FieldSpec.mk 8 4 7).with_field
            ((FieldSpec.mk 8 0 3).with_field 0 5) 9) =
        5 &&& (FieldSpec.mk 8 0 3).low_mask :=
  ⟨by decide, by decide, by decide,
    nonoverlap_get_amended (FieldSpec.mk 8 0 3) (FieldSpec.mk 8 4 7)
      (by decide) (by decide) (by decide) (by decide) 0 5 9⟩

/-- C7: re-deriving a field from its own extracted value is the identity
on the underlying raw bits: V.with_F(V.get_F()) = V. -/
theorem with_get_idempotent (f : FieldSpec) (hf : f.Valid) (V : Nat)
    (hV : V < 2 ^ f.accessBits) :
    f.with_field V (f.get_field V) = V := by
  obtain ⟨hl, hw⟩ := hf
  apply Nat.eq_of_testBit_eq
  intro j
  rw [testBit_with_field f ⟨hl, hw⟩]
  by_cases hin : f.low_bit ≤ j ∧ j ≤ f.high_bit
  · obtain ⟨h1, h2⟩ := hin
    rw [if_pos ⟨h1, h2⟩]
    unfold FieldSpec.get_field
    simp only [Nat.testBit_and, Nat.testBit_shiftRight,
      testBit_low_mask f ⟨hl, hw⟩]
    have he : f.low_bit + (j - f.low_bit) = j := by omega
    have hbc : j - f.low_bit < f.bit_count := by
      unfold FieldSpec.bit_count
      omega
    simp [he, hbc]
  · rw [if_neg hin]
    by_cases hjW : j < f.accessBits
    · simp [hjW]
    · have hV0 : V.testBit j = false :=
        Nat.testBit_lt_two_pow (lt_of_lt_of_le hV
          (Nat.pow_le_pow_right (by norm_num) (by omega)))
      simp [hV0, hjW]

/-- Witness for C7 at a concrete 16-bit register value. -/
theorem with_get_idempotent_witness :
    (FieldSpec.mk 16 3 9).Valid ∧ (49834 : Nat) < 2 ^ 16 ∧
      (FieldSpec.mk 16 3 9).with_field 49834
        ((FieldSpec.mk 16 3 9).get_field 49834) = 49834 :=
  ⟨by decide, by decide,
    with_get_idempotent (FieldSpec.mk 16 3 9) (by decide) 49834 (by decide)⟩

/-- C9: frame property for arbitrary, even oversized, arguments: every
bit of V.with_F(x) at a position outside F's in_place_mask equals the
corresponding bit of V, because the argument is masked with low_mask
before being shifted into place. -/
theorem with_field_frame (f : FieldSpec) (hf : f.Valid) (V x : Nat)
    (hV : V < 2 ^ f.accessBits) (j : Nat)
    (hj : f.in_place_mask.testBit j = false) :
    (f.with_field V x).testBit j = V.testBit j := by
  obtain ⟨hl, hw⟩ := hf
  have hout : ¬ (f.low_bit ≤ j ∧ j ≤ f.high_bit) := by
    intro hin
    rw [testBit_in_place_mask f ⟨hl, hw⟩] at hj
    simp [hin.1, hin.2] at hj
  rw [testBit_with_field f ⟨hl, hw⟩, if_neg hout]
  by_cases hjW : j < f.accessBits
  · simp [hjW]
  · have hV0 : V.testBit j = false :=
      Nat.testBit_lt_two_pow (lt_of_lt_of_le hV
        (Nat.pow_le_pow_right (by norm_num) (by omega)))
    simp [hV0, hjW]

/-- Witness for C9: writing an oversized value into bits 2..5 of a 32-bit
register leaves bit 7 (outside the mask) unchanged. -/
theorem with_field_frame_witness :
    (FieldSpec.mk 32 2 5).Valid ∧ (381 : Nat) < 2 ^ 32 ∧
      (FieldSpec.mk 32 2 5).in_place_mask.testBit 7 = false ∧
      ((FieldSpec.mk 32 2 5).with_field 381 99999).testBit 7 =
        (381 : Nat).testBit 7 :=
  ⟨by decide, by decide, by decide,
    with_field_frame (FieldSpec.mk 32 2 5) (by decide) 381 99999 (by decide)
      7 (by decide)⟩

/-- C6: for an array field with a positive element width and an in-range
index, element_count = bit_count / bits_per_element,
low_bit_of(i) = low_bit + i * bits_per_element, and with_F(i, v) changes
only the bits in the half-open range starting at low_bit_of(i) of width
bits_per_element — every bit outside it equals the corresponding bit of
the receiver. -/
theorem array_field_spec (af : ArrayFieldSpec) (hv : af.toFieldSpec.Valid)
    (hbpe : 0 < af.bits_per_element) (idx : Nat)
    (hi : idx < af.element_count) (V x : Nat)
    (hV : V < 2 ^ af.accessBits) :
    af.element_count = af.toFieldSpec.bit_count / af.bits_per_element ∧
      af.low_bit_of idx = af.low_bit + idx * af.bits_per_element ∧
      (∀ j, ¬ (af.low_bit_of idx ≤ j ∧
          j < af.low_bit_of idx + af.bits_per_element) →
        (af.with_field_array V idx x).testBit j = V.testBit j) := by
  refine ⟨rfl, rfl, fun j hj => ?_⟩
  rw [ArrayFieldSpec.testBit_with_field_array af hv hbpe idx hi, if_neg hj]
  by_cases hjW : j < af.accessBits
  · simp [hjW]
  · have hV0 : V.testBit j = false :=
      Nat.testBit_lt_two_pow (lt_of_lt_of_le hV
        (Nat.pow_le_pow_right (by norm_num) (by omega)))
    simp [hV0, hjW]

/-- Witness for C6 at the spec's example: a 16-bit region packed as four
4-bit sub-fields has low_bit_of(0) = 0 and low_bit_of(3) = 12, and
writing element 3 leaves bit 11 unchanged. -/
theorem array_field_spec_witness :
    (ArrayFieldSpec.mk (FieldSpec.mk 16 0 15) 4).toFieldSpec.Valid ∧
      (0 : Nat) < 4 ∧
      3 < (ArrayFieldSpec.mk (FieldSpec.mk 16 0 15) 4).element_count ∧
      (43690 : Nat) < 2 ^ 16 ∧
      (ArrayFieldSpec.mk (FieldSpec.mk 16 0 15) 4).low_bit_of 0 = 0 ∧
      (ArrayFieldSpec.mk (FieldSpec.mk 16 0 15) 4).low_bit_of 3 = 12 ∧
      ((ArrayFieldSpec.mk (FieldSpec.mk 16 0 15) 4).with_field_array
          43690 3 5).testBit 11 = (43690 : Nat).testBit 11 :=
  ⟨by decide, by decide, by decide, by decide, by decide, by decide,
    (array_field_spec (ArrayFieldSpec.mk (FieldSpec.mk 16 0 15) 4)
        (by decide) (by decide) 3 (by decide) 43690 5 (by decide)).2.2
      11 (by decide)⟩

/-- Immutable register value generated by `_ETL_BFF_REG_ANY`
(generate_value_types.h): a wrapper class holding the raw access_type
member `_bits`. -/
structure Value where
  bits : Nat
deriving DecidableEq

/-- Source: `explicit constexpr foo_value_t(access_type bits) : _bits(bits) {}`. -/
def value_of_raw (x : Nat) : Value := Value.mk x

/-- Source: `explicit constexpr operator access_type() const { return _bits; }`. -/
def raw_of_value (v : Value) : Nat := v.bits

/-- Source (generate_accessors.h, ETL_BFF_REG_RO):
`read_foo() { return foo_value_t(_foo); }`.  The storage cell `_foo` is
modelled by its raw contents. -/
def read_reg (cell : Nat) : Value := value_of_raw cell

/-- Source (generate_accessors.h, ETL_BFF_REG_WO, value overload):
`write_foo(foo_value_t value) { _foo = access_type(value); }` — the
result is the new cell contents. -/
def write_reg (_cell : Nat) (v : Value) : Nat := raw_of_value v

/-- Source (generate_accessors.h, ETL_BFF_REG_WO, raw overload):
`write_foo(access_type value) { _foo = value; }`. -/
def write_reg_raw (_cell : Nat) (x : Nat) : Nat := x

/-- Source (generate_accessors.h, ETL_BFF_REG_WO):
`swap_foo(old_value, new_value)` converts both operands to raw bits via
the explicit cast and calls
`__sync_bool_compare_and_swap(&_foo, old_bits, new_bits)`: the hardware
atomic replaces the cell with new_bits and returns true iff the cell
currently holds old_bits, otherwise it leaves the cell unchanged and
returns false.  Result: (new cell contents, returned Bool). -/
def swap_reg (cell : Nat) (ov nv : Value) : Nat × Bool :=
  if cell = raw_of_value ov then (raw_of_value nv, true) else (cell, false)

/-- One iteration of the do-while body of `update_foo`:
`auto before = read_foo(); succeeded = swap_foo(before, fn(before));`.
`cell` is the cell contents at the read; `observed` is the contents at
the moment the CAS executes (an interrupt handler or another core may
store to the cell in between). -/
def update_iter (fn : Value → Value) (cell observed : Nat) : Nat × Bool :=
  swap_reg observed (read_reg cell) (fn (read_reg cell))

/-- Source (generate_accessors.h, ETL_BFF_REG_WO):
`update_foo(fn)`: `do { auto before = read_foo(); succeeded =
swap_foo(before, fn(before)); } while (!succeeded);` (the indexed
ETL_BFF_REG_ARRAY_WO variant runs the same loop on `_foo[index]`).
Concurrent interference is modelled by `env`: its k-th entry, when
present, is a value another context stores into the cell between the
k-th iteration's read and its CAS; when `env` is exhausted no further
interference occurs, so the next CAS succeeds.  Returns the final cell
contents together with the number of loop iterations executed. -/
def update_reg (fn : Value → Value) (env : List (Option Nat)) (cell : Nat) :
    Nat × Nat :=
  match env with
  | [] => ((update_iter fn cell cell).1, 1)
  | e :: rest =>
    let step := update_iter fn cell (e.getD cell)
    if step.2 then (step.1, 1)
    else ((update_reg fn rest step.1).1, (update_reg fn rest step.1).2 + 1)

/-- The sequence of cell values read by the loop, one per iteration,
under the same interference schedule. -/
def update_reads (env : List (Option Nat)) (cell : Nat) : List Nat :=
  match env with
  | [] => [cell]
  | e :: rest =>
    if e.getD cell = cell then [cell]
    else cell :: update_reads rest (e.getD cell)

/-- The cell value read in the final (successful) iteration. -/
def update_last_read (env : List (Option Nat)) (cell : Nat) : Nat :=
  match env with
  | [] => cell
  | e :: rest =>
    if e.getD cell = cell then cell
    else update_last_read rest (e.getD cell)

/-- An interference schedule defeating n consecutive CAS attempts by
storing a different value during every iteration. -/
def update_adversary : Nat → Nat → List (Option Nat)
  | 0, _ => []
  | n + 1, c => some (c + 1) :: update_adversary n (c + 1)

theorem update_reg_nil (fn : Value → Value) (cell : Nat) :
    update_reg fn [] cell = ((update_iter fn cell cell).1, 1) := rfl

theorem update_reg_cons (fn : Value → Value) (e : Option Nat)
    (rest : List (Option Nat)) (cell : Nat) :
    update_reg fn (e :: rest) cell =
      if (update_iter fn cell (e.getD cell)).2 then
        ((update_iter fn cell (e.getD cell)).1, 1)
      else ((update_reg fn rest (update_iter fn cell (e.getD cell)).1).1,
        (update_reg fn rest (update_iter fn cell (e.getD cell)).1).2 + 1) := rfl

theorem update_iter_eq (fn : Value → Value) (cell observed : Nat) :
    update_iter fn cell observed =
      if observed = cell then (raw_of_value (fn (read_reg cell)), true)
      else (observed, false) := rfl

/-- The value the loop installs is fn applied to the final read — the
read taken in the same iteration as the successful CAS. -/
theorem update_reg_last_read (fn : Value → Value) (env : List (Option Nat))
    (cell : Nat) :
    (update_reg fn env cell).1 =
      raw_of_value (fn (read_reg (update_last_read env cell))) := by
  induction env generalizing cell with
  | nil =>
    rw [update_reg_nil, update_iter_eq]
    simp [update_last_read]
  | cons e rest ih =>
    rw [update_reg_cons, update_iter_eq]
    by_cases h : e.getD cell = cell
    · simp [h, update_last_read]
    · simp [h, update_last_read, ih]

/-- One read per iteration: the iteration count equals the number of
reads taken. -/
theorem update_reg_iters (fn : Value → Value) (env : List (Option Nat))
    (cell : Nat) :
    (update_reg fn env cell).2 = (update_reads env cell).length := by
  induction env generalizing cell with
  | nil =>
    rw [update_reg_nil]
    simp [update_reads]
  | cons e rest ih =>
    rw [update_reg_cons, update_iter_eq]
    by_cases h : e.getD cell = cell
    · simp [h, update_reads]
    · simp [h, update_reads, ih]

theorem update_reads_ne_nil (env : List (Option Nat)) (cell : Nat) :
    update_reads env cell ≠ [] := by
  cases env with
  | nil => simp [update_reads]
  | cons e rest =>
    unfold update_reads
    split <;> simp

/-- The final read is the last element of the read sequence. -/
theorem update_reads_getLast? (env : List (Option Nat)) (cell : Nat) :
    (update_reads env cell).getLast? = some (update_last_read env cell) := by
  induction env generalizing cell with
  | nil => simp [update_reads, update_last_read]
  | cons e rest ih =>
    by_cases h : e.getD cell = cell
    · simp [update_reads, update_last_read, h]
    · rw [update_reads, update_last_read]
      simp only [h, if_neg, ite_false]
      have hne := update_reads_ne_nil rest (e.getD cell)
      cases hrw : update_reads rest (e.getD cell) with
      | nil => exact absurd hrw hne
      | cons a l =>
        rw [List.getLast?_cons_cons, ← hrw, ih]

/-- The adversary schedule forces exactly n failed CAS attempts before
the loop finally succeeds on iteration n + 1. -/
theorem update_adversary_iters (fn : Value → Value) (n c : Nat) :
    (update_reg fn (update_adversary n c) c).2 = n + 1 := by
  induction n generalizing c with
  | zero => rfl
  | succ n ih =>
    show (update_reg fn (some (c + 1) :: update_adversary n (c + 1)) c).2 = _
    rw [update_reg_cons, update_iter_eq]
    simp only [Option.getD_some]
    rw [if_neg (by omega : ¬ (c + 1 = c))]
    simp [ih]

/-- C3: update_foo runs a read / apply-fn / compare_and_swap loop: the
iteration count equals the number of reads (one fresh read per
iteration), the value finally installed is fn applied to the value read
in the same — final, successful — iteration, never a stale one, the
loop returns only once a CAS succeeds, and the retries are unbounded:
for every n some interference schedule forces more than n iterations. -/
theorem update_loop_spec (fn : Value → Value) :
    (∀ env cell,
      (update_reg fn env cell).1 =
          raw_of_value (fn (read_reg (update_last_read env cell))) ∧
        (update_reads env cell).getLast? =
          some (update_last_read env cell) ∧
        (update_reg fn env cell).2 = (update_reads env cell).length) ∧
      ∀ n, ∃ env cell, n < (update_reg fn env cell).2 :=
  ⟨fun env cell => ⟨update_reg_last_read fn env cell,
      update_reads_getLast? env cell, update_reg_iters fn env cell⟩,
    fun n => ⟨update_adversary n 0, 0, by
      rw [update_adversary_iters]
      omega⟩⟩

/-- C4: compare_and_swap returns a Bool: it installs desired's raw bits
and returns true iff the cell currently equals expected's raw bits, and
otherwise returns false leaving the cell unchanged. -/
theorem swap_spec (cell : Nat) (expected desired : Value) :
    ((swap_reg cell expected desired).2 = true ↔
        cell = raw_of_value expected) ∧
      (swap_reg cell expected desired).1 =
        if cell = raw_of_value expected then raw_of_value desired
        else cell := by
  unfold swap_reg
  by_cases h : cell = raw_of_value expected <;> simp [h]

/-- C10: the raw access-type overload of write_foo stores exactly the
same bits as the value-type overload applied to the explicitly
constructed value: the two overloads are observationally equivalent. -/
theorem write_raw_overload_equiv (cell x : Nat) :
    write_reg_raw cell x = write_reg cell (value_of_raw x) ∧
      write_reg_raw cell x = x :=
  ⟨rfl, rfl⟩

/-- Source (checks.h, _ETL_BFF_FIELD_COMMON):
`static_assert(f_meta::high_bit >= f_meta::low_bit, ...)`. -/
def check_bit_order (f : FieldSpec) : Prop := f.high_bit ≥ f.low_bit

/-- Source (checks.h, _ETL_BFF_FIELD_COMMON):
`static_assert(f_meta::high_bit < sizeof(meta_type::access_type) * 8, ...)`. -/
def check_bit_range (f : FieldSpec) : Prop := f.high_bit < f.accessBits

/-- Source (checks.h, ETL_BFF_FIELD_ARRAY):
`static_assert(f_meta::bit_count % __n == 0, ...)`. -/
def check_array_element (af : ArrayFieldSpec) : Prop :=
  af.toFieldSpec.bit_count % af.bits_per_element = 0

/-- Source (checks.h, ETL_BFF_ENUM):
`static_assert((__v) == ((__v) & f_meta::low_mask), ...)`. -/
def check_enum (f : FieldSpec) (v : Nat) : Prop := v = v &&& f.low_mask

/-- C8: the generated static assertions hold exactly when the declared
schema invariants do: the bit-order and bit-range checks are literally
`high_bit >= low_bit` and `high_bit < access_width`, the array check is
divisibility of bit_count by the element width, and — for a field
satisfying the range invariants — the enum check holds iff the constant
fits in the field's bit_count bits. -/
theorem checks_iff_invariants (f : FieldSpec) (af : ArrayFieldSpec)
    (v : Nat) (hf : f.Valid) :
    (check_bit_order f ↔ f.low_bit ≤ f.high_bit) ∧
      (check_bit_range f ↔ f.high_bit < f.accessBits) ∧
      (check_array_element af ↔
        af.bits_per_element ∣ af.toFieldSpec.bit_count) ∧
      (check_enum f v ↔ v < 2 ^ f.bit_count) := by
  refine ⟨Iff.rfl, Iff.rfl, Nat.dvd_iff_mod_eq_zero.symm, ?_⟩
  unfold check_enum
  rw [low_mask_eq f hf, Nat.and_pow_two_sub_one_eq_mod]
  constructor
  · intro h
    have hp : 0 < 2 ^ f.bit_count := Nat.pos_pow_of_pos _ (by norm_num)
    have hm := Nat.mod_lt v hp
    omega
  · intro h
    exact (Nat.mod_eq_of_lt h).symm

/-- Witness for C8 at a 4-bit field of a 32-bit register and the enum
constant 9, which fits. -/
theorem checks_iff_invariants_witness :
    (FieldSpec.mk 32 8 11).Valid ∧
      (check_enum (FieldSpec.mk 32 8 11) 9 ↔
        9 < 2 ^ (FieldSpec.mk 32 8 11).bit_count) :=
  ⟨by decide,
    (checks_iff_invariants (FieldSpec.mk 32 8 11)
        (ArrayFieldSpec.mk (FieldSpec.mk 16 0 15) 4) 9 (by decide)).2.2.2⟩

end Biffield
